import Mathlib

/-!
# Verification of `scripts/stress/k6_open.js`

A shallow embedding of the k6 stress script that opens red packets at a
constant arrival rate, and theorems about its configuration, its identity
generator, its campaign selection, the request it builds and the check it
records.

Conventions of the embedding:

* JavaScript strings are `String`; integer-valued numbers placed in a template
  literal are rendered in decimal (`toString`), which is what the language
  does for integers of magnitude below `10 ^ 21`.
* A number that need not be an integer (a `Math.random()` draw, a product) is
  the exact rational value of a binary64 number; arithmetic rounds to nearest,
  ties to even (`fl`).
* The ambient inputs of one iteration (`Math.random()` draws, `Date.now()`,
  `__VU`, `__ITER`, `__ENV.BASE_URL`) are explicit arguments.
* The effects of one iteration (the HTTP request issued through `http.post`
  and the records emitted through `check`) are logged in an explicit
  `Runtime` state that is passed through.
-/

namespace K6Open

/-! ## Configuration (lines 4 to 18) -/

/-- The constant `campaigns` (line 4). -/
def campaigns : List ℕ := [1, 2]

/-- The constant `baseURL` (line 5): `__ENV.BASE_URL || default`. The argument
is the result of the environment lookup, `none` when the variable is absent
(`undefined`). The operator `||` yields its right operand exactly when the left
one is falsy, which for a string means that it is empty. -/
def baseURL (envBaseURL : Option String) : String :=
  match envBaseURL with
  | none => "http://localhost:8080"
  | some s => if s = "" then "http://localhost:8080" else s

/-- The fields of one entry of `options.scenarios` (lines 10 to 15). -/
structure ScenarioOptions where
  executor : String
  duration : String
  rate : ℕ
  timeUnit : String
  preAllocatedVUs : ℕ
  maxVUs : ℕ
  deriving DecidableEq, Repr

/-- The shape of the exported `options` object: named scenarios. -/
structure Options where
  scenarios : List (String × ScenarioOptions)
  deriving DecidableEq, Repr

/-- The exported constant `options` (lines 7 to 18). -/
def options : Options :=
  { scenarios :=
      [("open_red_packets",
        { executor := "constant-arrival-rate"
          duration := "2m"
          rate := 5000
          timeUnit := "1s"
          preAllocatedVUs := 1500
          maxVUs := 6000 })] }

/-! ## Responses and the acceptability check (lines 38 to 40) -/

/-- The part of a k6 response object the script can observe. A transport-level
failure is reported by k6 as a response with `status = 0` and a non-empty
`error`. -/
structure Response where
  status : ℤ
  body : String
  error : String
  url : String
  deriving DecidableEq, Repr

/-- The predicate of the check named `status acceptable` (line 39):
`[200, 400, 404, 409, 410].includes(r.status)`. -/
def statusAcceptable (r : Response) : Bool :=
  [200, 400, 404, 409, 410].contains r.status

/-! ## Numbers

`Math.random()` returns a binary64 floating-point number. Such a number is
represented here by its exact rational value; the product of two numbers is
the exact product rounded to the nearest binary64 number, ties to even. -/

/-- Round a rational to the nearest integer, ties to the even one. -/
def roundHalfEven (q : ℚ) : ℤ :=
  if q - ⌊q⌋ < 1 / 2 then ⌊q⌋
  else if 1 / 2 < q - ⌊q⌋ then ⌊q⌋ + 1
  else if ⌊q⌋ % 2 = 0 then ⌊q⌋ else ⌊q⌋ + 1

/-- Exponent of the unit in the last place of binary64 at the magnitude of `x`:
53 significant bits, smallest normal exponent `-1022` (below it the spacing is
the subnormal one, `2 ^ (-1074)`). -/
def ulpExp (x : ℚ) : ℤ := max (Int.log 2 |x|) (-1022) - 52

/-- Rounding of an exact value to binary64, round-to-nearest, ties-to-even.
Overflow to an infinity (magnitudes from `2 ^ 1024` on) lies outside this model;
no value computed by the script comes near it. -/
def fl (x : ℚ) : ℚ := roundHalfEven (x / 2 ^ ulpExp x) * 2 ^ ulpExp x

/-- The rational `x` is the value of a finite binary64 number. -/
def IsDouble (x : ℚ) : Prop := fl x = x ∧ |x| < 2 ^ (1024 : ℕ)

instance : DecidablePred IsDouble := fun x => by unfold IsDouble; infer_instance

/-- The operator `*` on numbers. -/
def jsMul (a b : ℚ) : ℚ := fl (a * b)

/-- The numeric literal `0.2` (line 22): the binary64 number nearest to one fifth. -/
def duplicateThreshold : ℚ := fl (1 / 5)

/-! ## Identity generation (lines 20 to 26) -/

/-- The function `nextUserID`. `duplicateChance` is the value of the first call of
`Math.random()`, `r` the value of the second one (made on the duplicate branch
only), `now` the value of `Date.now()`, `vu` and `iter` the values of `__VU` and
`__ITER`. -/
def nextUserID (duplicateChance r : ℚ) (now vu iter : ℕ) : String :=
  if duplicateChance < duplicateThreshold then
    "user-repeat-" ++ toString ⌊jsMul r 1000⌋
  else
    "user-" ++ toString now ++ "-" ++ toString vu ++ "-" ++ toString iter

/-! ## Campaign selection (line 29) -/

/-- Indexing of an array by an integer-valued number: `none` stands for the
`undefined` obtained outside the bounds. -/
def arrayGet (xs : List ℕ) (i : ℤ) : Option ℕ :=
  if 0 ≤ i then xs[i.toNat]? else none

/-- The expression `campaigns[Math.floor(Math.random() * campaigns.length)]`,
with `c` the value of the call of `Math.random()`. -/
def chooseCampaign (c : ℚ) : Option ℕ :=
  arrayGet campaigns ⌊jsMul c campaigns.length⌋

/-- Rendering of the value of `campaignID` inside a template literal. -/
def renderCampaign : Option ℕ → String
  | some c => toString c
  | none => "undefined"

/-! ## JSON text of the payload (line 30) -/

/-- Lower-case hexadecimal digit of a value below 16. -/
def hexDigit (n : ℕ) : Char :=
  if n < 10 then Char.ofNat (48 + n) else Char.ofNat (87 + n)

/-- The escape of one character inside a JSON string literal, as produced by
`JSON.stringify`: the quote and the backslash get a backslash, the control
characters their short or `u00XX` escape, every other character stands for
itself. -/
def jsonEscapeChar (c : Char) : List Char :=
  if c.toNat = 34 then [Char.ofNat 92, Char.ofNat 34]
  else if c.toNat = 92 then [Char.ofNat 92, Char.ofNat 92]
  else if c.toNat = 8 then [Char.ofNat 92, 'b']
  else if c.toNat = 9 then [Char.ofNat 92, 't']
  else if c.toNat = 10 then [Char.ofNat 92, 'n']
  else if c.toNat = 12 then [Char.ofNat 92, 'f']
  else if c.toNat = 13 then [Char.ofNat 92, 'r']
  else if c.toNat < 32 then
    [Char.ofNat 92, 'u', '0', '0', hexDigit (c.toNat / 16), hexDigit (c.toNat % 16)]
  else [c]

/-- The JSON string literal for a string. -/
def jsonQuote (s : String) : String :=
  String.mk (Char.ofNat 34 :: (s.data.flatMap jsonEscapeChar ++ [Char.ofNat 34]))

/-- The expression `JSON.stringify(\x7b user_id: u \x7d)`. -/
def stringifyUserId (u : String) : String :=
  "\x7b\"user_id\":" ++ jsonQuote u ++ "\x7d"

/-- Value of a hexadecimal digit. -/
def hexVal (c : Char) : Option ℕ :=
  if 48 ≤ c.toNat ∧ c.toNat ≤ 57 then some (c.toNat - 48)
  else if 97 ≤ c.toNat ∧ c.toNat ≤ 102 then some (c.toNat - 87)
  else if 65 ≤ c.toNat ∧ c.toNat ≤ 70 then some (c.toNat - 55)
  else none

/-- Reader of a JSON string literal whose opening quote has been consumed:
the decoded characters up to the closing quote, and the input after it. A raw
control character, an unknown escape or a missing closing quote is an error.
A `u` escape is decoded to the code point it names. -/
def readJsonString : List Char → Option (List Char × List Char)
  | [] => none
  | c :: cs =>
    if c.toNat = 34 then some ([], cs)
    else if c.toNat = 92 then
      match cs with
      | [] => none
      | e :: rest =>
        if e = 'u' then
          match rest with
          | h1 :: h2 :: h3 :: h4 :: rest4 =>
            match hexVal h1, hexVal h2, hexVal h3, hexVal h4 with
            | some a, some b, some c4, some d =>
              (readJsonString rest4).map
                (fun p => (Char.ofNat (((a * 16 + b) * 16 + c4) * 16 + d) :: p.1, p.2))
            | _, _, _, _ => none
          | _ => none
        else
          let decoded : Option Char :=
            if e.toNat = 34 then some (Char.ofNat 34)
            else if e.toNat = 92 then some (Char.ofNat 92)
            else if e = '/' then some '/'
            else if e = 'b' then some (Char.ofNat 8)
            else if e = 't' then some (Char.ofNat 9)
            else if e = 'n' then some (Char.ofNat 10)
            else if e = 'f' then some (Char.ofNat 12)
            else if e = 'r' then some (Char.ofNat 13)
            else none
          match decoded with
          | some ch => (readJsonString rest).map (fun p => (ch :: p.1, p.2))
          | none => none
    else if c.toNat < 32 then none
    else (readJsonString cs).map (fun p => (c :: p.1, p.2))

/-- Reading back the payload: the text must be an object with the single
member `user_id` holding a string, written without white space as
`JSON.stringify` writes it; the result is that string. -/
def parseUserIdBody (body : String) : Option String :=
  let opening := "\x7b\"user_id\":\"".data
  if opening.isPrefixOf body.data then
    match readJsonString (body.data.drop opening.length) with
    | some (content, rest) => if rest = "\x7d".data then some (String.mk content) else none
    | none => none
  else none

/-! ## The iteration (lines 28 to 41) -/

/-- What `http.post` is given: the method is fixed by the function called, the
URL and the body are its first two arguments, headers and timeout come from
the parameter object. -/
structure Request where
  method : String
  url : String
  body : String
  headers : List (String × String)
  timeout : String
  deriving DecidableEq, Repr

/-- The parameter object of `http.post` (lines 31 to 36). -/
structure Params where
  headers : List (String × String)
  timeout : String
  deriving DecidableEq, Repr

/-- One record emitted by `check` to the result sink. -/
structure CheckRecord where
  name : String
  passed : Bool
  deriving DecidableEq, Repr

/-- The k6 runtime around one iteration: how the target (or the transport)
answers a request, the requests issued so far and the check records emitted so
far. -/
structure Runtime where
  respond : Request → Response
  requests : List Request
  checks : List CheckRecord

/-- The call `http.post(url, body, params)`: issues one request and returns its
response. With the default parameters of k6 a failed transport does not throw,
it yields the response with status 0. -/
def httpPost (rt : Runtime) (url body : String) (params : Params) : Response × Runtime :=
  let req : Request :=
    { method := "POST", url := url, body := body,
      headers := params.headers, timeout := params.timeout }
  (rt.respond req, { rt with requests := rt.requests ++ [req] })

/-- The call `check(val, sets)`: evaluates every named predicate of `sets` on
`val`, emits one record per predicate and returns whether all of them held. -/
def check (rt : Runtime) (val : Response) (sets : List (String × (Response → Bool))) :
    Bool × Runtime :=
  (sets.all (fun s => s.2 val),
   { rt with checks := rt.checks ++ sets.map (fun s => { name := s.1, passed := s.2 val }) })

/-- The exported default function, one iteration. `c`, `d` and `r` are the
values of the calls of `Math.random()` in evaluation order (campaign choice,
then the two of `nextUserID`). -/
def defaultFn (rt : Runtime) (envBaseURL : Option String) (c d r : ℚ) (now vu iter : ℕ) :
    Runtime :=
  let campaignID := arrayGet campaigns ⌊jsMul c campaigns.length⌋
  let payload := stringifyUserId (nextUserID d r now vu iter)
  let posted := httpPost rt
    (baseURL envBaseURL ++ "/campaign/" ++ renderCampaign campaignID ++ "/open") payload
    { headers := [("Content-Type", "application/json")], timeout := "60s" }
  (check posted.2 posted.1 [("status acceptable", statusAcceptable)]).2

/-! ## Character classes -/

/-- The character is a lower-case letter, a decimal digit or the hyphen. -/
def IsIdentChar (c : Char) : Prop :=
  (97 ≤ c.toNat ∧ c.toNat ≤ 122) ∨ (48 ≤ c.toNat ∧ c.toNat ≤ 57) ∨ c.toNat = 45

instance : DecidablePred IsIdentChar := fun c => by unfold IsIdentChar; infer_instance

/-! ## Decimal rendering -/

/-- Value of a list of decimal digit characters, most significant first. -/
def digitsValue (l : List Char) : ℕ := l.foldl (fun a c => 10 * a + (c.toNat - 48)) 0

/-- The character is one of the ten decimal digits. -/
def IsDigitChar (c : Char) : Prop := 48 ≤ c.toNat ∧ c.toNat ≤ 57

instance : DecidablePred IsDigitChar := fun c => by unfold IsDigitChar; infer_instance

theorem digitChar_spec (k : ℕ) (h : k < 10) :
    IsDigitChar (Nat.digitChar k) ∧ (Nat.digitChar k).toNat - 48 = k := by
  unfold IsDigitChar
  interval_cases k <;> decide

theorem digitsValue_append_singleton (l : List Char) (c : Char) :
    digitsValue (l ++ [c]) = 10 * digitsValue l + (c.toNat - 48) := by
  simp [digitsValue, List.foldl_append]

theorem toDigitsCore_spec : ∀ (fuel n : ℕ) (ds : List Char), n < fuel →
    ∃ pre : List Char, Nat.toDigitsCore 10 fuel n ds = pre ++ ds ∧ pre ≠ [] ∧
      (∀ c ∈ pre, IsDigitChar c) ∧ digitsValue pre = n := by
  intro fuel
  induction fuel with
  | zero => intro n ds h; omega
  | succ f ih =>
    intro n ds h
    have hd := digitChar_spec (n % 10) (Nat.mod_lt _ (by norm_num))
    by_cases h0 : n / 10 = 0
    · refine ⟨[Nat.digitChar (n % 10)], ?_, by simp, ?_, ?_⟩
      · simp [Nat.toDigitsCore, h0]
      · intro c hc
        simp at hc
        subst hc
        exact hd.1
      · have h2 := hd.2
        have : n % 10 = n := by omega
        simp only [digitsValue, List.foldl_cons, List.foldl_nil]
        omega
    · have hlt : n / 10 < f := by omega
      obtain ⟨pre, hpre, hne, hdig, hval⟩ := ih (n / 10) (Nat.digitChar (n % 10) :: ds) hlt
      refine ⟨pre ++ [Nat.digitChar (n % 10)], ?_, by simp, ?_, ?_⟩
      · simp [Nat.toDigitsCore, h0, hpre]
      · intro c hc
        rcases List.mem_append.1 hc with hc | hc
        · exact hdig c hc
        · simp at hc
          subst hc
          exact hd.1
      · rw [digitsValue_append_singleton, hval, hd.2]
        omega

theorem toDigits_spec (n : ℕ) :
    Nat.toDigits 10 n ≠ [] ∧ (∀ c ∈ Nat.toDigits 10 n, IsDigitChar c) ∧
      digitsValue (Nat.toDigits 10 n) = n := by
  obtain ⟨pre, hpre, hne, hdig, hval⟩ := toDigitsCore_spec (n + 1) n [] (Nat.lt_succ_self n)
  have : Nat.toDigits 10 n = pre := by simp [Nat.toDigits, hpre]
  rw [this]
  exact ⟨hne, hdig, hval⟩

theorem toString_nat_data (n : ℕ) : (toString n).data = Nat.toDigits 10 n := rfl

theorem toString_nat_injective (a b : ℕ) (h : toString a = toString b) : a = b := by
  have h1 : (toString a).data = (toString b).data := by rw [h]
  rw [toString_nat_data, toString_nat_data] at h1
  have ha := (toDigits_spec a).2.2
  have hb := (toDigits_spec b).2.2
  rw [h1] at ha
  omega


/-! ## Rounding lemmas -/

theorem floor_le_roundHalfEven (q : ℚ) : ⌊q⌋ ≤ roundHalfEven q := by
  unfold roundHalfEven; split_ifs <;> omega

theorem roundHalfEven_le_floor_add_one (q : ℚ) : roundHalfEven q ≤ ⌊q⌋ + 1 := by
  unfold roundHalfEven; split_ifs <;> omega

theorem roundHalfEven_intCast (k : ℤ) : roundHalfEven (k : ℚ) = k := by
  unfold roundHalfEven
  simp

theorem roundHalfEven_mono {q q' : ℚ} (h : q ≤ q') : roundHalfEven q ≤ roundHalfEven q' := by
  have hf : ⌊q⌋ ≤ ⌊q'⌋ := Int.floor_mono h
  rcases hf.lt_or_eq with hlt | heq
  · calc roundHalfEven q ≤ ⌊q⌋ + 1 := roundHalfEven_le_floor_add_one q
      _ ≤ ⌊q'⌋ := hlt
      _ ≤ roundHalfEven q' := floor_le_roundHalfEven q'
  · unfold roundHalfEven
    rw [← heq]
    split_ifs <;> first | omega | (exfalso; linarith)

theorem roundHalfEven_le_of_le {q : ℚ} {k : ℤ} (h : q ≤ k) : roundHalfEven q ≤ k := by
  have := roundHalfEven_mono h
  rwa [roundHalfEven_intCast] at this

theorem le_roundHalfEven_of_le {q : ℚ} {k : ℤ} (h : (k : ℚ) ≤ q) : k ≤ roundHalfEven q := by
  have := roundHalfEven_mono h
  rwa [roundHalfEven_intCast] at this

theorem roundHalfEven_sub_le (q : ℚ) : (roundHalfEven q : ℚ) - q ≤ 1 / 2 := by
  have h1 := Int.floor_le q
  have h2 := Int.lt_floor_add_one q
  unfold roundHalfEven
  split_ifs <;> push_cast <;> linarith

theorem sub_roundHalfEven_le (q : ℚ) : q - (roundHalfEven q : ℚ) ≤ 1 / 2 := by
  have h1 := Int.floor_le q
  have h2 := Int.lt_floor_add_one q
  unfold roundHalfEven
  split_ifs <;> push_cast <;> linarith

theorem roundHalfEven_eq_of_near {q : ℚ} {k : ℤ} (h1 : (k : ℚ) - 1 / 2 < q)
    (h2 : q < k + 1 / 2) : roundHalfEven q = k := by
  have a := roundHalfEven_sub_le q
  have b := sub_roundHalfEven_le q
  have h3 : ((roundHalfEven q : ℤ) : ℚ) < ((k + 1 : ℤ) : ℚ) := by push_cast; linarith
  have h4 : ((k - 1 : ℤ) : ℚ) < ((roundHalfEven q : ℤ) : ℚ) := by push_cast; linarith
  have h3' := Int.cast_lt.1 h3
  have h4' := Int.cast_lt.1 h4
  omega


/-! ### The binade exponent -/

theorem two_zpow_pos (e : ℤ) : (0 : ℚ) < 2 ^ e := zpow_pos (by norm_num) e

theorem two_zpow_le {a b : ℤ} (h : a ≤ b) : (2 : ℚ) ^ a ≤ 2 ^ b :=
  zpow_le_zpow_right₀ (by norm_num) h

theorem log_eq_of_bounds {x : ℚ} {e : ℤ} (h1 : (2 : ℚ) ^ e ≤ x) (h2 : x < 2 ^ (e + 1)) :
    Int.log 2 x = e := by
  have hx : 0 < x := lt_of_lt_of_le (two_zpow_pos e) h1
  have a : e ≤ Int.log 2 x := (Int.zpow_le_iff_le_log (by norm_num) hx).1 (by exact_mod_cast h1)
  have b : Int.log 2 x < e + 1 := (Int.lt_zpow_iff_log_lt (by norm_num) hx).1 (by exact_mod_cast h2)
  omega

theorem ulpExp_of_bounds {x : ℚ} {e : ℤ} (he : -1022 ≤ e) (h1 : (2 : ℚ) ^ e ≤ x)
    (h2 : x < 2 ^ (e + 1)) : ulpExp x = e - 52 := by
  have hx : 0 < x := lt_of_lt_of_le (two_zpow_pos e) h1
  unfold ulpExp
  rw [abs_of_pos hx, log_eq_of_bounds h1 h2, max_eq_left he]

theorem ulpExp_ge (x : ℚ) : -1074 ≤ ulpExp x := by
  unfold ulpExp
  have := le_max_right (Int.log 2 |x|) (-1022)
  omega

theorem lt_two_zpow_ulpExp {x : ℚ} (hx : 0 ≤ x) : x < 2 ^ (ulpExp x + 53) := by
  have h := Int.lt_zpow_succ_log_self (R := ℚ) (b := 2) (by norm_num) x
  have h' : x < (2 : ℚ) ^ (Int.log 2 x + 1) := by exact_mod_cast h
  refine lt_of_lt_of_le h' (two_zpow_le ?_)
  unfold ulpExp
  rw [abs_of_nonneg hx]
  have := le_max_left (Int.log 2 x) (-1022)
  omega

theorem two_zpow_ulpExp_le {x : ℚ} (hx : 0 < x) (h : -1074 < ulpExp x) :
    (2 : ℚ) ^ (ulpExp x + 52) ≤ x := by
  have hlog : ulpExp x + 52 = Int.log 2 x := by
    unfold ulpExp at h ⊢
    rw [abs_of_pos hx] at h ⊢
    rcases le_total (Int.log 2 x) (-1022) with hc | hc
    · rw [max_eq_right hc] at h; omega
    · rw [max_eq_left hc]; omega
  rw [hlog]
  have := Int.zpow_log_le_self (R := ℚ) (b := 2) (by norm_num) hx
  exact_mod_cast this

theorem ulpExp_mono {x y : ℚ} (hx : 0 < x) (h : x ≤ y) : ulpExp x ≤ ulpExp y := by
  unfold ulpExp
  rw [abs_of_pos hx, abs_of_pos (lt_of_lt_of_le hx h)]
  have := Int.log_mono_right (R := ℚ) (b := 2) hx h
  have := max_le_max this (le_refl (-1022 : ℤ))
  omega


/-! ### Rounding to binary64 -/

theorem fl_eq (x : ℚ) : fl x = roundHalfEven (x / 2 ^ ulpExp x) * 2 ^ ulpExp x := rfl

theorem fl_zero : fl 0 = 0 := by
  have h : roundHalfEven ((0 : ℤ) : ℚ) = 0 := roundHalfEven_intCast 0
  rw [fl_eq, zero_div]
  norm_num at h
  rw [h]
  simp

theorem fl_nonneg {x : ℚ} (hx : 0 ≤ x) : 0 ≤ fl x := by
  rw [fl_eq]
  have hs : ((0 : ℤ) : ℚ) ≤ x / 2 ^ ulpExp x := by
    have := div_nonneg hx (two_zpow_pos (ulpExp x)).le
    simpa using this
  have hk := le_roundHalfEven_of_le hs
  have hk' : (0 : ℚ) ≤ (roundHalfEven (x / 2 ^ ulpExp x) : ℚ) := by exact_mod_cast hk
  exact mul_nonneg hk' (two_zpow_pos _).le

theorem fl_le_two_zpow {x : ℚ} (hx : 0 ≤ x) : fl x ≤ 2 ^ (ulpExp x + 53) := by
  rw [fl_eq]
  have hp := two_zpow_pos (ulpExp x)
  have hs : x / 2 ^ ulpExp x ≤ ((2 ^ 53 : ℤ) : ℚ) := by
    rw [div_le_iff₀ hp]
    have := (lt_two_zpow_ulpExp hx).le
    rw [zpow_add₀ (by norm_num : (2 : ℚ) ≠ 0)] at this
    have e : ((2 ^ 53 : ℤ) : ℚ) * 2 ^ ulpExp x = 2 ^ ulpExp x * 2 ^ (53 : ℤ) := by
      push_cast
      rw [mul_comm]
      norm_num
    rw [e]
    exact this
  have hk := roundHalfEven_le_of_le hs
  have hk' : (roundHalfEven (x / 2 ^ ulpExp x) : ℚ) ≤ ((2 ^ 53 : ℤ) : ℚ) := by exact_mod_cast hk
  calc (roundHalfEven (x / 2 ^ ulpExp x) : ℚ) * 2 ^ ulpExp x
      ≤ ((2 ^ 53 : ℤ) : ℚ) * 2 ^ ulpExp x := mul_le_mul_of_nonneg_right hk' hp.le
    _ = 2 ^ (ulpExp x + 53) := by
        rw [zpow_add₀ (by norm_num : (2 : ℚ) ≠ 0)]
        push_cast
        rw [mul_comm]
        norm_num

theorem two_zpow_le_fl {x : ℚ} (hx : 0 < x) (h : -1074 < ulpExp x) :
    (2 : ℚ) ^ (ulpExp x + 52) ≤ fl x := by
  rw [fl_eq]
  have hp := two_zpow_pos (ulpExp x)
  have hs : ((2 ^ 52 : ℤ) : ℚ) ≤ x / 2 ^ ulpExp x := by
    rw [le_div_iff₀ hp]
    have := two_zpow_ulpExp_le hx h
    rw [zpow_add₀ (by norm_num : (2 : ℚ) ≠ 0)] at this
    have e : ((2 ^ 52 : ℤ) : ℚ) * 2 ^ ulpExp x = 2 ^ ulpExp x * 2 ^ (52 : ℤ) := by
      push_cast
      rw [mul_comm]
      norm_num
    rw [e]
    exact this
  have hk := le_roundHalfEven_of_le hs
  have hk' : ((2 ^ 52 : ℤ) : ℚ) ≤ (roundHalfEven (x / 2 ^ ulpExp x) : ℚ) := by exact_mod_cast hk
  calc (2 : ℚ) ^ (ulpExp x + 52) = ((2 ^ 52 : ℤ) : ℚ) * 2 ^ ulpExp x := by
        rw [zpow_add₀ (by norm_num : (2 : ℚ) ≠ 0)]
        push_cast
        rw [mul_comm]
        norm_num
    _ ≤ (roundHalfEven (x / 2 ^ ulpExp x) : ℚ) * 2 ^ ulpExp x :=
        mul_le_mul_of_nonneg_right hk' hp.le

theorem fl_mono {x y : ℚ} (hx : 0 ≤ x) (h : x ≤ y) : fl x ≤ fl y := by
  rcases hx.lt_or_eq with hpos | hzero
  · have hy : 0 < y := lt_of_lt_of_le hpos h
    rcases (ulpExp_mono hpos h).lt_or_eq with hlt | heq
    · have hy1 : -1074 < ulpExp y := lt_of_le_of_lt (ulpExp_ge x) hlt
      calc fl x ≤ 2 ^ (ulpExp x + 53) := fl_le_two_zpow hx
        _ ≤ 2 ^ (ulpExp y + 52) := two_zpow_le (by omega)
        _ ≤ fl y := two_zpow_le_fl hy hy1
    · rw [fl_eq, fl_eq, heq]
      have hp := two_zpow_pos (ulpExp y)
      have hs : x / 2 ^ ulpExp y ≤ y / 2 ^ ulpExp y := div_le_div_of_nonneg_right h hp.le
      have hk := roundHalfEven_mono hs
      have hk' : (roundHalfEven (x / 2 ^ ulpExp y) : ℚ) ≤ (roundHalfEven (y / 2 ^ ulpExp y) : ℚ) := by
        exact_mod_cast hk
      exact mul_le_mul_of_nonneg_right hk' hp.le
  · rw [← hzero, fl_zero]
    exact fl_nonneg (le_trans hx h)


/-- Every `m * 2 ^ j` with `m < 2 ^ 53` and `-1074 ≤ j` is a fixed point of rounding. -/
theorem fl_dyadic (m : ℕ) (j : ℤ) (hm : m < 2 ^ 53) (hj : -1074 ≤ j) :
    fl ((m : ℚ) * 2 ^ j) = (m : ℚ) * 2 ^ j := by
  rcases Nat.eq_zero_or_pos m with h0 | hpos
  · subst h0
    simp [fl_zero]
  · have hx : (0 : ℚ) < (m : ℚ) * 2 ^ j := mul_pos (by exact_mod_cast hpos) (two_zpow_pos j)
    have hlt : (m : ℚ) * 2 ^ j < 2 ^ (j + 53) := by
      rw [zpow_add₀ (by norm_num : (2 : ℚ) ≠ 0), mul_comm]
      have hm' : (m : ℚ) < 2 ^ (53 : ℤ) := by
        have h1 : (m : ℚ) < (2 : ℚ) ^ (53 : ℕ) := by exact_mod_cast hm
        have h2 : (2 : ℚ) ^ (53 : ℤ) = (2 : ℚ) ^ (53 : ℕ) := by norm_cast
        rw [h2]
        exact h1
      exact mul_lt_mul_of_pos_left hm' (two_zpow_pos j)
    have hu : ulpExp ((m : ℚ) * 2 ^ j) ≤ j := by
      have hl : Int.log 2 ((m : ℚ) * 2 ^ j) < j + 53 :=
        (Int.lt_zpow_iff_log_lt (by norm_num) hx).1 (by exact_mod_cast hlt)
      unfold ulpExp
      rw [abs_of_pos hx]
      have := max_le hl.le (by omega : (-1022 : ℤ) ≤ j + 53)
      rcases le_total (Int.log 2 ((m : ℚ) * 2 ^ j)) (-1022) with hc | hc
      · rw [max_eq_right hc]; omega
      · rw [max_eq_left hc]; omega
    obtain ⟨k, hk⟩ := Int.eq_ofNat_of_zero_le (sub_nonneg.2 hu)
    have hj' : j = ulpExp ((m : ℚ) * 2 ^ j) + k := by omega
    have hs : (m : ℚ) * 2 ^ j / 2 ^ ulpExp ((m : ℚ) * 2 ^ j) = (((m * 2 ^ k : ℕ) : ℤ) : ℚ) := by
      rw [div_eq_iff (two_zpow_pos _).ne']
      conv_lhs => rw [hj']
      rw [zpow_add₀ (by norm_num : (2 : ℚ) ≠ 0)]
      push_cast
      rw [zpow_natCast]
      ring
    rw [fl_eq, hs, roundHalfEven_intCast, ← hs]
    exact div_mul_cancel₀ _ (two_zpow_pos _).ne'

theorem fl_natCast (n : ℕ) (hn : n < 2 ^ 53) : fl (n : ℚ) = n := by
  have := fl_dyadic n 0 hn (by norm_num)
  simpa using this

/-- A non-negative fixed point of rounding is `m * 2 ^ j` with `m < 2 ^ 53`, `-1074 ≤ j`. -/
theorem exists_dyadic_of_fl_eq {x : ℚ} (hx : 0 ≤ x) (h : fl x = x) :
    ∃ (m : ℕ) (j : ℤ), m < 2 ^ 53 ∧ -1074 ≤ j ∧ x = (m : ℚ) * 2 ^ j := by
  have hp := two_zpow_pos (ulpExp x)
  have hs0 : ((0 : ℤ) : ℚ) ≤ x / 2 ^ ulpExp x := by
    have := div_nonneg hx hp.le
    simpa using this
  have hk0 := le_roundHalfEven_of_le hs0
  have hfx : (roundHalfEven (x / 2 ^ ulpExp x) : ℚ) * 2 ^ ulpExp x = x := (fl_eq x).symm.trans h
  have hlt := lt_two_zpow_ulpExp hx
  generalize roundHalfEven (x / 2 ^ ulpExp x) = k at hk0 hfx
  generalize ulpExp_ge x = hu
  generalize ulpExp x = u at hp hfx hlt hu
  obtain ⟨m, hm⟩ := Int.eq_ofNat_of_zero_le hk0
  subst hm
  have hxm : x = (m : ℚ) * 2 ^ u := by
    rw [← hfx]
    push_cast
    rfl
  refine ⟨m, u, ?_, hu, hxm⟩
  rw [hxm, zpow_add₀ (by norm_num : (2 : ℚ) ≠ 0), mul_comm ((2 : ℚ) ^ u)] at hlt
  have h1 : (m : ℚ) < (2 : ℚ) ^ (53 : ℤ) := lt_of_mul_lt_mul_right hlt hp.le
  have h2 : (2 : ℚ) ^ (53 : ℤ) = (2 : ℚ) ^ (53 : ℕ) := by norm_cast
  rw [h2] at h1
  exact_mod_cast h1


/-- The non-negative binary64 numbers are the `m * 2 ^ j` below `2 ^ 1024` with
`m < 2 ^ 53` and `-1074 ≤ j`. -/
theorem isDouble_iff_dyadic {x : ℚ} (hx : 0 ≤ x) :
    IsDouble x ↔
      (∃ (m : ℕ) (j : ℤ), m < 2 ^ 53 ∧ -1074 ≤ j ∧ x = (m : ℚ) * 2 ^ j) ∧ x < 2 ^ (1024 : ℕ) := by
  unfold IsDouble
  rw [abs_of_nonneg hx]
  constructor
  · rintro ⟨h1, h2⟩
    exact ⟨exists_dyadic_of_fl_eq hx h1, h2⟩
  · rintro ⟨⟨m, j, hm, hj, rfl⟩, h2⟩
    exact ⟨fl_dyadic m j hm hj, h2⟩

theorem roundHalfEven_le_of_lt_add_half {q : ℚ} {k : ℤ} (h : q < k + 1 / 2) :
    roundHalfEven q ≤ k := by
  have a := roundHalfEven_sub_le q
  have h3 : ((roundHalfEven q : ℤ) : ℚ) < ((k + 1 : ℤ) : ℚ) := by push_cast; linarith
  have h3' := Int.cast_lt.1 h3
  omega

/-- Within one binade a fixed point of rounding is a multiple of the unit in the last place. -/
theorem exists_int_of_fl_eq {x : ℚ} {e : ℤ} (he : -1022 ≤ e) (h1 : (2 : ℚ) ^ e ≤ x)
    (h2 : x < 2 ^ (e + 1)) (h : fl x = x) : ∃ k : ℤ, x = (k : ℚ) * 2 ^ (e - 52) := by
  refine ⟨roundHalfEven (x / 2 ^ ulpExp x), ?_⟩
  have hfx := (fl_eq x).symm.trans h
  rw [ulpExp_of_bounds he h1 h2] at hfx
  rw [ulpExp_of_bounds he h1 h2]
  exact hfx.symm

theorem fl_sub_le (x : ℚ) : fl x - x ≤ 2 ^ ulpExp x / 2 := by
  have hp := two_zpow_pos (ulpExp x)
  have a := roundHalfEven_sub_le (x / 2 ^ ulpExp x)
  have hx : x = x / 2 ^ ulpExp x * 2 ^ ulpExp x := (div_mul_cancel₀ _ hp.ne').symm
  have e : fl x - x = ((roundHalfEven (x / 2 ^ ulpExp x) : ℚ) - x / 2 ^ ulpExp x) * 2 ^ ulpExp x := by
    rw [sub_mul, ← hx, fl_eq]
  rw [e]
  calc ((roundHalfEven (x / 2 ^ ulpExp x) : ℚ) - x / 2 ^ ulpExp x) * 2 ^ ulpExp x
      ≤ 1 / 2 * 2 ^ ulpExp x := mul_le_mul_of_nonneg_right a hp.le
    _ = 2 ^ ulpExp x / 2 := by ring

/-- Rounding up to a positive integer loses at most the relative error `2 ^ (-53)`. -/
theorem natCast_mul_le_of_le_fl {x : ℚ} (hx : 0 ≤ x) (k : ℕ) (h : (k : ℚ) ≤ fl x) :
    (k : ℚ) * (1 - 1 / 2 ^ 53) ≤ x := by
  rcases Nat.eq_zero_or_pos k with h0 | hpos
  · subst h0
    simpa using hx
  · have hk1 : (1 : ℚ) ≤ k := by exact_mod_cast hpos
    have hu := ulpExp_ge x
    rcases hu.lt_or_eq with hlt | heq
    · have hxpos : 0 < x := by
        rcases hx.lt_or_eq with hp | hz
        · exact hp
        · exfalso
          rw [← hz, fl_zero] at h
          linarith
      have h1 := two_zpow_ulpExp_le hxpos hlt
      rw [zpow_add₀ (by norm_num : (2 : ℚ) ≠ 0)] at h1
      have h2 := fl_sub_le x
      have hp := two_zpow_pos (ulpExp x)
      have e52 : (2 : ℚ) ^ (52 : ℤ) = 2 ^ 52 := by norm_cast
      rw [e52] at h1
      generalize (2 : ℚ) ^ ulpExp x = t at h1 h2 hp
      generalize fl x = y at h h2
      have h3 : y ≤ x * (1 + 1 / 2 ^ 53) := by
        have : t / 2 ≤ x * (1 / 2 ^ 53) := by
          have : t * 2 ^ 52 * (1 / 2 ^ 53) ≤ x * (1 / 2 ^ 53) :=
            mul_le_mul_of_nonneg_right h1 (by norm_num)
          calc t / 2 = t * 2 ^ 52 * (1 / 2 ^ 53) := by ring
            _ ≤ x * (1 / 2 ^ 53) := this
        linarith
      have h4 : (k : ℚ) * (1 - 1 / 2 ^ 53) ≤ x * (1 + 1 / 2 ^ 53) * (1 - 1 / 2 ^ 53) :=
        mul_le_mul_of_nonneg_right (le_trans h h3) (by norm_num)
      have h5 : x * (1 + 1 / 2 ^ 53) * (1 - 1 / 2 ^ 53) ≤ x := by
        have : x * (1 + 1 / 2 ^ 53) * (1 - 1 / 2 ^ 53) = x - x * (1 / 2 ^ 106) := by ring
        rw [this]
        have : 0 ≤ x * (1 / 2 ^ 106) := mul_nonneg hx (by norm_num)
        linarith
      exact le_trans h4 h5
    · exfalso
      have h1 := fl_le_two_zpow hx
      rw [← heq] at h1
      have h2 : (2 : ℚ) ^ (-1074 + 53 : ℤ) ≤ 2 ^ (-1 : ℤ) := two_zpow_le (by norm_num)
      have h3 : (2 : ℚ) ^ (-1 : ℤ) = 1 / 2 := by norm_num
      have h4 : (1 : ℚ) ≤ 1 / 2 := le_trans hk1 (le_trans h (le_trans h1 (le_trans h2 h3.le)))
      norm_num at h4


/-! ### Draws in the unit interval -/

theorem le_pred_one_of_isDouble {r : ℚ} (hd : IsDouble r) (h1 : r < 1) :
    r ≤ 1 - 1 / 2 ^ 53 := by
  by_contra hc
  push_neg at hc
  have hlo : (2 : ℚ) ^ (-1 : ℤ) ≤ r := by
    have : (2 : ℚ) ^ (-1 : ℤ) = 1 / 2 := by norm_num
    rw [this]
    have : (1 : ℚ) / 2 ≤ 1 - 1 / 2 ^ 53 := by norm_num
    linarith
  have hhi : r < (2 : ℚ) ^ (-1 + 1 : ℤ) := by
    have : (2 : ℚ) ^ (-1 + 1 : ℤ) = 1 := by norm_num
    rw [this]
    exact h1
  obtain ⟨k, hk⟩ := exists_int_of_fl_eq (by norm_num) hlo hhi hd.1
  have e : (2 : ℚ) ^ (-1 - 52 : ℤ) = 1 / 2 ^ 53 := by
    have : (-1 - 52 : ℤ) = -53 := by norm_num
    rw [this, zpow_neg]
    norm_cast
    simp
  rw [e] at hk
  have a : ((k : ℤ) : ℚ) < ((2 ^ 53 : ℤ) : ℚ) := by
    push_cast
    have : (k : ℚ) * (1 / 2 ^ 53) < 1 := hk ▸ h1
    have h2 : (k : ℚ) = (k : ℚ) * (1 / 2 ^ 53) * 2 ^ 53 := by ring
    rw [h2]
    have := mul_lt_mul_of_pos_right this (by norm_num : (0 : ℚ) < 2 ^ 53)
    linarith
  have b : ((2 ^ 53 - 1 : ℤ) : ℚ) < ((k : ℤ) : ℚ) := by
    push_cast
    have : 1 - 1 / 2 ^ 53 < (k : ℚ) * (1 / 2 ^ 53) := hk ▸ hc
    have h2 : (k : ℚ) = (k : ℚ) * (1 / 2 ^ 53) * 2 ^ 53 := by ring
    rw [h2]
    have := mul_lt_mul_of_pos_right this (by norm_num : (0 : ℚ) < 2 ^ 53)
    linarith
  have a' := Int.cast_lt.1 a
  have b' := Int.cast_lt.1 b
  omega

theorem fl_mul_thousand_lt {r : ℚ} (hd : IsDouble r) (h0 : 0 ≤ r) (h1 : r < 1) :
    fl (r * 1000) < 1000 := by
  have hr := le_pred_one_of_isDouble hd h1
  rcases lt_or_le (r * 1000) 512 with hs | hb
  · have h512 : fl ((512 : ℕ) : ℚ) = ((512 : ℕ) : ℚ) := fl_natCast 512 (by norm_num)
    have := fl_mono (mul_nonneg h0 (by norm_num)) hs.le
    have h' : fl (512 : ℚ) = 512 := by exact_mod_cast h512
    rw [h'] at this
    linarith
  · have hlo : (2 : ℚ) ^ (9 : ℤ) ≤ r * 1000 := by
      have : (2 : ℚ) ^ (9 : ℤ) = 512 := by norm_num
      rw [this]; exact hb
    have hhi : r * 1000 < (2 : ℚ) ^ (9 + 1 : ℤ) := by
      have : (2 : ℚ) ^ (9 + 1 : ℤ) = 1024 := by norm_num
      rw [this]; linarith
    have hu := ulpExp_of_bounds (by norm_num) hlo hhi
    have e : (2 : ℚ) ^ (9 - 52 : ℤ) = 1 / 2 ^ 43 := by
      have : (9 - 52 : ℤ) = -43 := by norm_num
      rw [this, zpow_neg]
      norm_cast
      simp
    rw [fl_eq, hu, e]
    have hq : r * 1000 / (1 / 2 ^ 43) < ((1000 * 2 ^ 43 - 1 : ℤ) : ℚ) + 1 / 2 := by
      push_cast
      rw [div_lt_iff₀ (by norm_num)]
      have : r * 1000 ≤ (1 - 1 / 2 ^ 53) * 1000 := mul_le_mul_of_nonneg_right hr (by norm_num)
      refine lt_of_le_of_lt this ?_
      norm_num
    have hk := roundHalfEven_le_of_lt_add_half hq
    have hk' : (roundHalfEven (r * 1000 / (1 / 2 ^ 43)) : ℚ) ≤ ((1000 * 2 ^ 43 - 1 : ℤ) : ℚ) := by
      exact_mod_cast hk
    have := mul_le_mul_of_nonneg_right hk' (by norm_num : (0 : ℚ) ≤ 1 / 2 ^ 43)
    refine lt_of_le_of_lt this ?_
    norm_num

theorem fl_mul_two {r : ℚ} (hd : IsDouble r) (h0 : 0 ≤ r) : fl (r * 2) = r * 2 := by
  obtain ⟨m, j, hm, hj, hr⟩ := exists_dyadic_of_fl_eq h0 hd.1
  have e : r * 2 = (m : ℚ) * 2 ^ (j + 1) := by
    rw [hr, zpow_add₀ (by norm_num : (2 : ℚ) ≠ 0)]
    norm_num
    ring
  rw [e]
  exact fl_dyadic m (j + 1) hm (by omega)


/-! ### The literal `0.2` and the products of the script -/

theorem duplicateThreshold_eq : duplicateThreshold = 7205759403792794 / 2 ^ 55 := by
  unfold duplicateThreshold
  have hlo : (2 : ℚ) ^ (-3 : ℤ) ≤ 1 / 5 := by norm_num
  have hhi : (1 / 5 : ℚ) < 2 ^ (-3 + 1 : ℤ) := by norm_num
  have hu := ulpExp_of_bounds (by norm_num) hlo hhi
  have e : (2 : ℚ) ^ (-3 - 52 : ℤ) = 1 / 2 ^ 55 := by
    have : (-3 - 52 : ℤ) = -55 := by norm_num
    rw [this, zpow_neg]
    norm_cast
    simp
  rw [fl_eq, hu, e]
  have hk : roundHalfEven (1 / 5 / (1 / 2 ^ 55)) = 7205759403792794 :=
    roundHalfEven_eq_of_near (by norm_num) (by norm_num)
  rw [hk]
  norm_num

theorem one_fifth_lt_duplicateThreshold : (1 / 5 : ℚ) < duplicateThreshold := by
  rw [duplicateThreshold_eq]
  norm_num

/-- No binary64 number lies between one fifth and the literal `0.2`. -/
theorem lt_duplicateThreshold_iff {d : ℚ} (hd : IsDouble d) :
    d < duplicateThreshold ↔ d < 1 / 5 := by
  constructor
  · intro h
    rw [duplicateThreshold_eq] at h
    rcases lt_or_le d (1 / 8) with hs | hb
    · linarith
    · have hlo : (2 : ℚ) ^ (-3 : ℤ) ≤ d := by
        have : (2 : ℚ) ^ (-3 : ℤ) = 1 / 8 := by norm_num
        rw [this]; exact hb
      have hhi : d < (2 : ℚ) ^ (-3 + 1 : ℤ) := by
        have : (2 : ℚ) ^ (-3 + 1 : ℤ) = 1 / 4 := by norm_num
        rw [this]
        refine lt_trans h ?_
        norm_num
      obtain ⟨k, hk⟩ := exists_int_of_fl_eq (by norm_num) hlo hhi hd.1
      have e : (2 : ℚ) ^ (-3 - 52 : ℤ) = 1 / 2 ^ 55 := by
        have : (-3 - 52 : ℤ) = -55 := by norm_num
        rw [this, zpow_neg]
        norm_cast
        simp
      rw [e] at hk
      have a : ((k : ℤ) : ℚ) < ((7205759403792794 : ℤ) : ℚ) := by
        push_cast
        have h2 : (k : ℚ) = (k : ℚ) * (1 / 2 ^ 55) * 2 ^ 55 := by ring
        rw [h2, ← hk]
        have := mul_lt_mul_of_pos_right h (by norm_num : (0 : ℚ) < 2 ^ 55)
        refine lt_of_lt_of_le this ?_
        norm_num
      have a' := Int.cast_lt.1 a
      have b : k ≤ 7205759403792793 := by omega
      have b' : (k : ℚ) ≤ ((7205759403792793 : ℤ) : ℚ) := by exact_mod_cast b
      rw [hk]
      have := mul_le_mul_of_nonneg_right b' (by norm_num : (0 : ℚ) ≤ 1 / 2 ^ 55)
      refine lt_of_le_of_lt this ?_
      norm_num
  · intro h
    exact lt_trans h one_fifth_lt_duplicateThreshold

theorem natCast_le_fl {x : ℚ} (n : ℕ) (hn : n < 2 ^ 53) (h : (n : ℚ) ≤ x) : (n : ℚ) ≤ fl x := by
  have := fl_mono (Nat.cast_nonneg n) h
  rwa [fl_natCast n hn] at this

theorem lt_of_fl_lt_natCast {x : ℚ} (n : ℕ) (hn : n < 2 ^ 53) (h : fl x < n) : x < n := by
  by_contra hc
  push_neg at hc
  have := natCast_le_fl n hn hc
  linarith

/-- The index `Math.floor(r * 1000)` of a draw `r` in the unit interval. -/
theorem floor_mul_thousand {r : ℚ} (hd : IsDouble r) (h0 : 0 ≤ r) (h1 : r < 1) :
    ∃ n : ℕ, n ≤ 999 ∧ ⌊jsMul r 1000⌋ = (n : ℤ) ∧
      (n : ℚ) / 1000 * (1 - 1 / 2 ^ 53) ≤ r ∧ r < ((n : ℚ) + 1) / 1000 := by
  have hx : 0 ≤ r * 1000 := mul_nonneg h0 (by norm_num)
  have hfl0 : 0 ≤ fl (r * 1000) := fl_nonneg hx
  have hfl1 := fl_mul_thousand_lt hd h0 h1
  have hf0 : 0 ≤ ⌊jsMul r 1000⌋ := Int.floor_nonneg.2 hfl0
  obtain ⟨n, hn⟩ := Int.eq_ofNat_of_zero_le hf0
  have hle : ((n : ℤ) : ℚ) ≤ fl (r * 1000) := by
    rw [← hn]
    exact Int.floor_le _
  have hlt : fl (r * 1000) < ((n : ℤ) : ℚ) + 1 := by
    rw [← hn]
    exact Int.lt_floor_add_one _
  have hn999 : n ≤ 999 := by
    have : ((n : ℤ) : ℚ) < ((1000 : ℤ) : ℚ) := by
      push_cast
      push_cast at hle
      linarith
    have := Int.cast_lt.1 this
    omega
  refine ⟨n, hn999, hn, ?_, ?_⟩
  · have := natCast_mul_le_of_le_fl hx n (by exact_mod_cast hle)
    have e : (n : ℚ) / 1000 * (1 - 1 / 2 ^ 53) = (n : ℚ) * (1 - 1 / 2 ^ 53) / 1000 := by ring
    rw [e, div_le_iff₀ (by norm_num)]
    exact this
  · have h2 : fl (r * 1000) < ((n + 1 : ℕ) : ℚ) := by
      push_cast
      push_cast at hlt
      exact hlt
    have := lt_of_fl_lt_natCast (n + 1) (by
      have : (2 : ℕ) ^ 53 = 9007199254740992 := by norm_num
      omega) h2
    push_cast at this
    rw [lt_div_iff₀ (by norm_num)]
    exact this

/-- Draws well inside the interval of `n` get the index `n`. -/
theorem floor_mul_thousand_eq {r : ℚ} (n : ℕ) (hn : n ≤ 999) (h0 : (n : ℚ) / 1000 ≤ r)
    (h1 : r < ((n : ℚ) + 1) / 1000 * (1 - 1 / 2 ^ 53)) : ⌊jsMul r 1000⌋ = (n : ℤ) := by
  have hp : (2 : ℕ) ^ 53 = 9007199254740992 := by norm_num
  have hr0 : 0 ≤ r := le_trans (div_nonneg (Nat.cast_nonneg n) (by norm_num)) h0
  have hx : 0 ≤ r * 1000 := mul_nonneg hr0 (by norm_num)
  have hlo : (n : ℚ) ≤ r * 1000 := by
    rw [div_le_iff₀ (by norm_num)] at h0
    exact h0
  have hhi : r * 1000 < ((n + 1 : ℕ) : ℚ) * (1 - 1 / 2 ^ 53) := by
    push_cast
    have := mul_lt_mul_of_pos_right h1 (by norm_num : (0 : ℚ) < 1000)
    calc r * 1000 < ((n : ℚ) + 1) / 1000 * (1 - 1 / 2 ^ 53) * 1000 := this
      _ = ((n : ℚ) + 1) * (1 - 1 / 2 ^ 53) := by ring
  rw [Int.floor_eq_iff]
  constructor
  · have := natCast_le_fl n (by omega) hlo
    exact_mod_cast this
  · by_contra hc
    push_neg at hc
    have h2 : ((n + 1 : ℕ) : ℚ) ≤ fl (r * 1000) := by
      push_cast
      exact_mod_cast hc
    have := natCast_mul_le_of_le_fl hx (n + 1) h2
    linarith

/-- Every pool index is the index of some draw. -/
theorem exists_draw_of_index (n : ℕ) (hn : n ≤ 999) :
    ∃ r : ℚ, IsDouble r ∧ 0 ≤ r ∧ r < 1 ∧ ⌊jsMul r 1000⌋ = (n : ℤ) := by
  obtain ⟨k, hk⟩ : ∃ k : ℕ, k = (n * 1048576 + 999) / 1000 := ⟨_, rfl⟩
  have hk1 : n * 1048576 ≤ 1000 * k := by omega
  have hk2 : 1000 * k ≤ n * 1048576 + 999 := by omega
  have hk3 : k < 2 ^ 53 := by
    have : (2 : ℕ) ^ 53 = 9007199254740992 := by norm_num
    omega
  have e : (2 : ℚ) ^ (-20 : ℤ) = 1 / 1048576 := by norm_num
  have hq1 : (n : ℚ) * 1048576 ≤ 1000 * k := by exact_mod_cast hk1
  have hq2 : (1000 : ℚ) * k ≤ n * 1048576 + 999 := by exact_mod_cast hk2
  have hq3 : (n : ℚ) ≤ 999 := by exact_mod_cast hn
  have hq0 : (0 : ℚ) ≤ n := Nat.cast_nonneg n
  have hfix := fl_dyadic k (-20) hk3 (by norm_num)
  rw [e] at hfix
  have hlt : (k : ℚ) * (1 / 1048576) < ((n : ℚ) + 1) / 1000 * (1 - 1 / 2 ^ 53) := by
    norm_num
    linarith
  have hlo : (n : ℚ) / 1000 ≤ (k : ℚ) * (1 / 1048576) := by
    rw [div_le_iff₀ (by norm_num)]
    linarith
  have h1 : (k : ℚ) * (1 / 1048576) < 1 := by
    refine lt_trans hlt ?_
    norm_num
    linarith
  have h0 : (0 : ℚ) ≤ (k : ℚ) * (1 / 1048576) := mul_nonneg (Nat.cast_nonneg k) (by norm_num)
  refine ⟨(k : ℚ) * (1 / 1048576), ⟨hfix, ?_⟩, h0, h1, floor_mul_thousand_eq n hn hlo hlt⟩
  rw [abs_of_nonneg h0]
  refine lt_trans h1 ?_
  norm_num

/-! ## String lemmas -/

theorem toString_int_natCast (n : ℕ) : toString ((n : ℕ) : ℤ) = toString n := rfl

theorem isIdentChar_of_isDigitChar {c : Char} (h : IsDigitChar c) : IsIdentChar c :=
  Or.inr (Or.inl h)

theorem toString_nat_isDigitChar (n : ℕ) : ∀ c ∈ (toString n).data, IsDigitChar c := by
  rw [toString_nat_data]
  exact (toDigits_spec n).2.1

theorem toString_nat_isIdentChar (n : ℕ) : ∀ c ∈ (toString n).data, IsIdentChar c :=
  fun c hc => isIdentChar_of_isDigitChar (toString_nat_isDigitChar n c hc)

theorem toString_int_isIdentChar (z : ℤ) : ∀ c ∈ (toString z).data, IsIdentChar c := by
  cases z with
  | ofNat n => exact toString_nat_isIdentChar n
  | negSucc n =>
    intro c hc
    have hd : (toString (Int.negSucc n)).data = '-' :: (toString (n + 1)).data := rfl
    rw [hd] at hc
    rcases List.mem_cons.1 hc with h | h
    · subst h
      decide
    · exact toString_nat_isIdentChar (n + 1) c h

/-- Every identity consists of lower-case letters, digits and hyphens only. -/
theorem nextUserID_isIdentChar (d r : ℚ) (now vu iter : ℕ) :
    ∀ c ∈ (nextUserID d r now vu iter).data, IsIdentChar c := by
  intro c hc
  unfold nextUserID at hc
  split_ifs at hc
  · rw [String.data_append] at hc
    rcases List.mem_append.1 hc with h | h
    · have hp : ∀ c ∈ "user-repeat-".data, IsIdentChar c := by decide
      exact hp c h
    · exact toString_int_isIdentChar _ c h
  · simp only [String.data_append, List.mem_append] at hc
    have hu : ∀ c ∈ "user-".data, IsIdentChar c := by decide
    have hh : ∀ c ∈ "-".data, IsIdentChar c := by decide
    rcases hc with (((((h | h) | h) | h) | h) | h)
    · exact hu c h
    · exact toString_nat_isIdentChar now c h
    · exact hh c h
    · exact toString_nat_isIdentChar vu c h
    · exact hh c h
    · exact toString_nat_isIdentChar iter c h

theorem isDigitChar_ne_hyphen {c : Char} (h : IsDigitChar c) : c ≠ '-' := by
  intro hc
  subst hc
  revert h
  decide

/-- Two texts cut at their first hyphen agree part by part. -/
theorem eq_of_append_hyphen_eq : ∀ (a a2 b b2 : List Char), (∀ c ∈ a, c ≠ '-') →
    (∀ c ∈ a2, c ≠ '-') → a ++ '-' :: b = a2 ++ '-' :: b2 → a = a2 ∧ b = b2 := by
  intro a
  induction a with
  | nil =>
    intro a2 b b2 _ h2 h
    cases a2 with
    | nil => simpa using h
    | cons x xs =>
      exfalso
      simp only [List.nil_append, List.cons_append, List.cons.injEq] at h
      exact h2 x (List.mem_cons_self x xs) h.1.symm
  | cons y ys ih =>
    intro a2 b b2 h1 h2 h
    cases a2 with
    | nil =>
      exfalso
      simp only [List.nil_append, List.cons_append, List.cons.injEq] at h
      exact h1 y (List.mem_cons_self y ys) h.1
    | cons x xs =>
      simp only [List.cons_append, List.cons.injEq] at h
      have := ih xs b b2 (fun c hc => h1 c (List.mem_cons_of_mem y hc))
        (fun c hc => h2 c (List.mem_cons_of_mem x hc)) h.2
      exact ⟨by rw [h.1, this.1], this.2⟩

theorem toString_nat_ne_hyphen (n : ℕ) : ∀ c ∈ (toString n).data, c ≠ '-' :=
  fun c hc => isDigitChar_ne_hyphen (toString_nat_isDigitChar n c hc)

theorem uniqueID_data (t v i : ℕ) :
    ("user-" ++ toString t ++ "-" ++ toString v ++ "-" ++ toString i).data =
      "user-".data ++ ((toString t).data ++ '-' :: ((toString v).data ++ '-' :: (toString i).data)) := by
  simp only [String.data_append, List.append_assoc]
  rfl

/-- The text of a unique-class identity determines its three numbers. -/
theorem uniqueID_injective {t v i t2 v2 i2 : ℕ}
    (h : "user-" ++ toString t ++ "-" ++ toString v ++ "-" ++ toString i =
      "user-" ++ toString t2 ++ "-" ++ toString v2 ++ "-" ++ toString i2) :
    t = t2 ∧ v = v2 ∧ i = i2 := by
  have hd := congrArg String.data h
  rw [uniqueID_data, uniqueID_data] at hd
  have h1 := List.append_cancel_left hd
  obtain ⟨ht, h2⟩ := eq_of_append_hyphen_eq _ _ _ _ (toString_nat_ne_hyphen t)
    (toString_nat_ne_hyphen t2) h1
  obtain ⟨hv, hi⟩ := eq_of_append_hyphen_eq _ _ _ _ (toString_nat_ne_hyphen v)
    (toString_nat_ne_hyphen v2) h2
  exact ⟨toString_nat_injective _ _ (String.ext ht), toString_nat_injective _ _ (String.ext hv),
    toString_nat_injective _ _ (String.ext hi)⟩

theorem repeatID_injective {n m : ℕ}
    (h : "user-repeat-" ++ toString n = "user-repeat-" ++ toString m) : n = m := by
  have hd := congrArg String.data h
  rw [String.data_append, String.data_append] at hd
  exact toString_nat_injective _ _ (String.ext (List.append_cancel_left hd))

/-- A unique-class text is never a repeated-class text: after `user-` the former
goes on with a digit, the latter with the letter `r`. -/
theorem uniqueID_ne_repeatID (t v i : ℕ) (suffix : String) :
    "user-" ++ toString t ++ "-" ++ toString v ++ "-" ++ toString i ≠
      "user-repeat-" ++ suffix := by
  intro h
  have hd := congrArg String.data h
  rw [uniqueID_data, String.data_append] at hd
  have e : "user-repeat-".data = "user-".data ++ "repeat-".data := by decide
  rw [e, List.append_assoc] at hd
  have h1 := List.append_cancel_left hd
  have hne := (toDigits_spec t).1
  have hdig := toString_nat_isDigitChar t
  rw [toString_nat_data] at h1 hdig
  cases hl : Nat.toDigits 10 t with
  | nil => exact hne hl
  | cons x xs =>
    rw [hl] at h1 hdig
    have hx : x = 'r' := by
      have := congrArg List.head? h1
      simpa using this
    have := hdig x (List.mem_cons_self x xs)
    rw [hx] at this
    revert this
    decide

theorem toString_int_injective (a b : ℤ) (h : toString a = toString b) : a = b := by
  have hd := congrArg String.data h
  have hhead : ∀ n : ℕ, ∃ x xs, (toString n).data = x :: xs ∧ IsDigitChar x := by
    intro n
    have hne := (toDigits_spec n).1
    have hdig := toString_nat_isDigitChar n
    rw [toString_nat_data] at hdig ⊢
    cases hl : Nat.toDigits 10 n with
    | nil => exact absurd hl hne
    | cons x xs =>
      rw [hl] at hdig
      exact ⟨x, xs, rfl, hdig x (List.mem_cons_self x xs)⟩
  cases a with
  | ofNat n =>
    cases b with
    | ofNat m =>
      have : n = m := toString_nat_injective n m h
      rw [this]
    | negSucc m =>
      exfalso
      have e1 : (toString (Int.ofNat n)).data = (toString n).data := rfl
      have e2 : (toString (Int.negSucc m)).data = '-' :: (toString (m + 1)).data := rfl
      obtain ⟨x, xs, hx, hdx⟩ := hhead n
      rw [e1, e2, hx] at hd
      have := (List.cons.inj hd).1
      exact isDigitChar_ne_hyphen hdx this
  | negSucc n =>
    cases b with
    | ofNat m =>
      exfalso
      have e1 : (toString (Int.ofNat m)).data = (toString m).data := rfl
      have e2 : (toString (Int.negSucc n)).data = '-' :: (toString (n + 1)).data := rfl
      obtain ⟨x, xs, hx, hdx⟩ := hhead m
      rw [e1, e2, hx] at hd
      have := (List.cons.inj hd).1
      exact isDigitChar_ne_hyphen hdx this.symm
    | negSucc m =>
      have e1 : (toString (Int.negSucc m)).data = '-' :: (toString (m + 1)).data := rfl
      have e2 : (toString (Int.negSucc n)).data = '-' :: (toString (n + 1)).data := rfl
      rw [e1, e2] at hd
      have := toString_nat_injective _ _ (String.ext (List.cons.inj hd).2)
      have : n = m := by omega
      rw [this]

/-! ## JSON lemmas -/

theorem jsonEscapeChar_of_isIdentChar {c : Char} (h : IsIdentChar c) : jsonEscapeChar c = [c] := by
  unfold IsIdentChar at h
  unfold jsonEscapeChar
  split_ifs <;> first | rfl | omega

theorem flatMap_jsonEscapeChar (l : List Char) (h : ∀ c ∈ l, IsIdentChar c) :
    l.flatMap jsonEscapeChar = l := by
  induction l with
  | nil => rfl
  | cons x xs ih =>
    rw [List.flatMap_cons, jsonEscapeChar_of_isIdentChar (h x (List.mem_cons_self x xs)),
      ih (fun c hc => h c (List.mem_cons_of_mem x hc))]
    rfl

theorem readJsonString_plain (l rest : List Char) (h : ∀ c ∈ l, IsIdentChar c) :
    readJsonString (l ++ Char.ofNat 34 :: rest) = some (l, rest) := by
  induction l with
  | nil =>
    have : (Char.ofNat 34).toNat = 34 := by decide
    rw [List.nil_append, readJsonString.eq_def]
    simp only [this, if_true]
  | cons x xs ih =>
    have hx := h x (List.mem_cons_self x xs)
    unfold IsIdentChar at hx
    have h1 : ¬ x.toNat = 34 := by omega
    have h2 : ¬ x.toNat = 92 := by omega
    have h3 : ¬ x.toNat < 32 := by omega
    rw [List.cons_append, readJsonString.eq_def]
    simp only [if_neg h1, if_neg h2, if_neg h3]
    rw [ih (fun c hc => h c (List.mem_cons_of_mem x hc))]
    rfl

/-- An identity made of letters, digits and hyphens is quoted without escapes. -/
theorem stringifyUserId_plain (u : String) (h : ∀ c ∈ u.data, IsIdentChar c) :
    stringifyUserId u = "\x7b\"user_id\":\"" ++ u ++ "\"\x7d" := by
  apply String.ext
  simp only [stringifyUserId, jsonQuote, String.data_append, flatMap_jsonEscapeChar u.data h]
  simp

theorem parseUserIdBody_stringify (u : String) (h : ∀ c ∈ u.data, IsIdentChar c) :
    parseUserIdBody (stringifyUserId u) = some u := by
  have hd : (stringifyUserId u).data =
      "\x7b\"user_id\":\"".data ++ (u.data ++ Char.ofNat 34 :: "\x7d".data) := by
    rw [stringifyUserId_plain u h]
    simp only [String.data_append, List.append_assoc]
  unfold parseUserIdBody
  simp only [hd]
  have hp : ("\x7b\"user_id\":\"".data).isPrefixOf
      ("\x7b\"user_id\":\"".data ++ (u.data ++ Char.ofNat 34 :: "\x7d".data)) = true := by
    simp
  rw [if_pos hp, List.drop_left, readJsonString_plain _ _ h]
  simp

/-! ## Branches of `nextUserID` and the campaign index -/

theorem nextUserID_of_lt {d : ℚ} (r : ℚ) (now vu iter : ℕ) (h : d < duplicateThreshold) :
    nextUserID d r now vu iter = "user-repeat-" ++ toString ⌊jsMul r 1000⌋ := if_pos h

theorem nextUserID_of_not_lt {d : ℚ} (r : ℚ) (now vu iter : ℕ) (h : ¬ d < duplicateThreshold) :
    nextUserID d r now vu iter =
      "user-" ++ toString now ++ "-" ++ toString vu ++ "-" ++ toString iter := if_neg h

theorem zero_lt_duplicateThreshold : (0 : ℚ) < duplicateThreshold := by
  rw [duplicateThreshold_eq]
  norm_num

theorem half_not_lt_duplicateThreshold : ¬ ((1 / 2 : ℚ) < duplicateThreshold) := by
  rw [duplicateThreshold_eq]
  norm_num

theorem isDouble_zero : IsDouble 0 := ⟨fl_zero, by norm_num⟩

theorem isDouble_half : IsDouble (1 / 2) := by
  have h := fl_dyadic 1 (-1) (by norm_num) (by norm_num)
  have e : ((1 : ℕ) : ℚ) * 2 ^ (-1 : ℤ) = 1 / 2 := by norm_num
  rw [e] at h
  refine ⟨h, ?_⟩
  rw [abs_of_nonneg (by norm_num)]
  norm_num

theorem jsMul_length (c : ℚ) : jsMul c campaigns.length = fl (c * 2) := by
  unfold jsMul campaigns
  norm_num

/-- The index `Math.floor(c * campaigns.length)` of a draw `c` in the unit
interval: doubling is exact. -/
theorem floor_mul_length {c : ℚ} (hd : IsDouble c) (h0 : 0 ≤ c) (h1 : c < 1) :
    (c < 1 / 2 → ⌊jsMul c campaigns.length⌋ = 0) ∧
    (1 / 2 ≤ c → ⌊jsMul c campaigns.length⌋ = 1) := by
  rw [jsMul_length, fl_mul_two hd h0]
  constructor
  · intro h
    rw [Int.floor_eq_iff]
    constructor
    · push_cast; linarith
    · push_cast; linarith
  · intro h
    rw [Int.floor_eq_iff]
    constructor
    · push_cast; linarith
    · push_cast; linarith

theorem chooseCampaign_of_lt {c : ℚ} (hd : IsDouble c) (h0 : 0 ≤ c) (h1 : c < 1)
    (h : c < 1 / 2) : chooseCampaign c = some 1 := by
  unfold chooseCampaign
  rw [(floor_mul_length hd h0 h1).1 h]
  rfl

theorem chooseCampaign_of_ge {c : ℚ} (hd : IsDouble c) (h0 : 0 ≤ c) (h1 : c < 1)
    (h : 1 / 2 ≤ c) : chooseCampaign c = some 2 := by
  unfold chooseCampaign
  rw [(floor_mul_length hd h0 h1).2 h]
  rfl

theorem chooseCampaign_zero : chooseCampaign 0 = some 1 :=
  chooseCampaign_of_lt isDouble_zero (le_refl 0) (by norm_num) (by norm_num)

/-- The effects of one iteration: one request, one check record. -/
theorem defaultFn_effects (rt : Runtime) (env : Option String) (c d r : ℚ) (now vu iter : ℕ) :
    ∃ req : Request,
      req = { method := "POST"
              url := baseURL env ++ "/campaign/" ++ renderCampaign (chooseCampaign c) ++ "/open"
              body := stringifyUserId (nextUserID d r now vu iter)
              headers := [("Content-Type", "application/json")]
              timeout := "60s" } ∧
      (defaultFn rt env c d r now vu iter).requests = rt.requests ++ [req] ∧
      (defaultFn rt env c d r now vu iter).checks =
        rt.checks ++ [{ name := "status acceptable", passed := statusAcceptable (rt.respond req) }] :=
  ⟨_, rfl, rfl, rfl⟩

theorem statusAcceptable_eq_true_iff (r : Response) :
    statusAcceptable r = true ↔
      r.status = 200 ∨ r.status = 400 ∨ r.status = 404 ∨ r.status = 409 ∨ r.status = 410 := by
  simp [statusAcceptable]

/-! ## The claims -/

/-- C1: the check `status acceptable` holds of a response exactly when its
status is one of 200, 400, 404, 409, 410; it fails for every other status, the
status 0 of a transport failure included; and it depends on the status alone,
whatever the body, the error text and the URL of the response. -/
theorem statusAcceptable_iff_status_in_set (r : Response) :
    (statusAcceptable r = true ↔
      r.status = 200 ∨ r.status = 400 ∨ r.status = 404 ∨ r.status = 409 ∨ r.status = 410) ∧
    (statusAcceptable r = false ↔
      ¬ (r.status = 200 ∨ r.status = 400 ∨ r.status = 404 ∨ r.status = 409 ∨ r.status = 410)) ∧
    (∀ body error url : String,
      statusAcceptable { status := 0, body := body, error := error, url := url } = false) ∧
    (∀ body error url : String,
      statusAcceptable { status := r.status, body := body, error := error, url := url } =
        statusAcceptable r) := by
  refine ⟨statusAcceptable_eq_true_iff r, ?_, ?_, ?_⟩
  · rw [← statusAcceptable_eq_true_iff r]
    simp
  · intro body error url
    rfl
  · intro body error url
    rfl

/-- C2: two unique-class identities `user-<timestamp>-<VU>-<ITER>` returned by
`nextUserID` for different pairs (worker index, iteration index) are different
strings, whatever the two timestamps, equal or not. -/
theorem unique_identities_distinct (d1 r1 d2 r2 : ℚ) (t1 t2 v1 i1 v2 i2 : ℕ)
    (h1 : ¬ d1 < duplicateThreshold) (h2 : ¬ d2 < duplicateThreshold)
    (hne : (v1, i1) ≠ (v2, i2)) :
    nextUserID d1 r1 t1 v1 i1 ≠ nextUserID d2 r2 t2 v2 i2 := by
  rw [nextUserID_of_not_lt r1 t1 v1 i1 h1, nextUserID_of_not_lt r2 t2 v2 i2 h2]
  intro h
  obtain ⟨_, hv, hi⟩ := uniqueID_injective h
  exact hne (by rw [hv, hi])

/-- Witness of C2: worker 3 and worker 4 at the same millisecond and the same
iteration index. -/
theorem unique_identities_distinct_witness :
    nextUserID (1 / 2) 0 1700000000000 3 7 ≠ nextUserID (1 / 2) 0 1700000000000 4 7 :=
  unique_identities_distinct (1 / 2) 0 (1 / 2) 0 1700000000000 1700000000000 3 7 4 7
    half_not_lt_duplicateThreshold half_not_lt_duplicateThreshold (by decide)

/-- C10: a unique-class identity is never equal to a repeated-class identity,
for all timestamps, worker and iteration indices and every pool index; and
repeated-class identities of different pool indices are different. -/
theorem identity_classes_disjoint (d1 r1 d2 r2 d3 r3 : ℚ) (t v i t2 v2 i2 t3 v3 i3 : ℕ)
    (h1 : ¬ d1 < duplicateThreshold) (h2 : d2 < duplicateThreshold)
    (h3 : d3 < duplicateThreshold) :
    nextUserID d1 r1 t v i ≠ nextUserID d2 r2 t2 v2 i2 ∧
    (∀ n : ℕ, "user-" ++ toString t ++ "-" ++ toString v ++ "-" ++ toString i ≠
      "user-repeat-" ++ toString n) ∧
    (⌊jsMul r2 1000⌋ ≠ ⌊jsMul r3 1000⌋ →
      nextUserID d2 r2 t2 v2 i2 ≠ nextUserID d3 r3 t3 v3 i3) ∧
    (∀ n m : ℕ, n ≠ m → "user-repeat-" ++ toString n ≠ "user-repeat-" ++ toString m) := by
  refine ⟨?_, ?_, ?_, ?_⟩
  · rw [nextUserID_of_not_lt r1 t v i h1, nextUserID_of_lt r2 t2 v2 i2 h2]
    exact uniqueID_ne_repeatID t v i _
  · intro n
    exact uniqueID_ne_repeatID t v i _
  · intro hne h
    rw [nextUserID_of_lt r2 t2 v2 i2 h2, nextUserID_of_lt r3 t3 v3 i3 h3] at h
    have hd := congrArg String.data h
    rw [String.data_append, String.data_append] at hd
    exact hne (toString_int_injective _ _ (String.ext (List.append_cancel_left hd)))
  · intro n m hne h
    exact hne (repeatID_injective h)

/-- Witness of C10: a unique-class draw against two repeated-class draws. -/
theorem identity_classes_disjoint_witness :
    nextUserID (1 / 2) 0 1700000000000 3 7 ≠ nextUserID 0 (1 / 2) 1700000000000 3 7 ∧
    (∀ n : ℕ, "user-" ++ toString 1700000000000 ++ "-" ++ toString 3 ++ "-" ++ toString 7 ≠
      "user-repeat-" ++ toString n) ∧
    (⌊jsMul (1 / 2) 1000⌋ ≠ ⌊jsMul 0 1000⌋ →
      nextUserID 0 (1 / 2) 1700000000000 3 7 ≠ nextUserID 0 0 1700000000001 4 8) ∧
    (∀ n m : ℕ, n ≠ m → "user-repeat-" ++ toString n ≠ "user-repeat-" ++ toString m) :=
  identity_classes_disjoint (1 / 2) 0 0 (1 / 2) 0 0 1700000000000 3 7 1700000000000 3 7
    1700000000001 4 8 half_not_lt_duplicateThreshold zero_lt_duplicateThreshold
    zero_lt_duplicateThreshold

/-- C4: for a first draw `d` (a binary64 number), `nextUserID` returns a
repeated-class identity `user-repeat-...` if and only if `d < 0.2`, and the
unique-class identity `user-<timestamp>-<VU>-<ITER>` if and only if `d ≥ 0.2`;
comparing with the literal `0.2` and comparing with one fifth select the same
draws; and the class depends on `d` only, not on the second draw, the
timestamp, the worker index or the iteration index. -/
theorem identity_class_by_first_draw (d r : ℚ) (now vu iter : ℕ) (hd : IsDouble d) :
    ((∃ suffix : String, nextUserID d r now vu iter = "user-repeat-" ++ suffix) ↔ d < 1 / 5) ∧
    (nextUserID d r now vu iter =
        "user-" ++ toString now ++ "-" ++ toString vu ++ "-" ++ toString iter ↔ 1 / 5 ≤ d) ∧
    (d < duplicateThreshold ↔ d < 1 / 5) ∧
    (∀ (r2 : ℚ) (now2 vu2 iter2 : ℕ),
      (∃ suffix : String, nextUserID d r now vu iter = "user-repeat-" ++ suffix) ↔
        (∃ suffix : String, nextUserID d r2 now2 vu2 iter2 = "user-repeat-" ++ suffix)) := by
  have hiff := lt_duplicateThreshold_iff hd
  have hrep : ∀ (r2 : ℚ) (now2 vu2 iter2 : ℕ),
      (∃ suffix : String, nextUserID d r2 now2 vu2 iter2 = "user-repeat-" ++ suffix) ↔
        d < 1 / 5 := by
    intro r2 now2 vu2 iter2
    constructor
    · rintro ⟨suffix, hs⟩
      by_contra hc
      have hn : ¬ d < duplicateThreshold := fun h => hc (hiff.1 h)
      rw [nextUserID_of_not_lt r2 now2 vu2 iter2 hn] at hs
      exact uniqueID_ne_repeatID now2 vu2 iter2 suffix hs
    · intro h
      exact ⟨_, nextUserID_of_lt r2 now2 vu2 iter2 (hiff.2 h)⟩
  refine ⟨hrep r now vu iter, ?_, hiff, ?_⟩
  · constructor
    · intro h
      by_contra hc
      push_neg at hc
      rw [nextUserID_of_lt r now vu iter (hiff.2 hc)] at h
      exact uniqueID_ne_repeatID now vu iter _ h.symm
    · intro h
      exact nextUserID_of_not_lt r now vu iter (fun hlt => absurd (hiff.1 hlt) (not_lt.2 h))
  · intro r2 now2 vu2 iter2
    rw [hrep r now vu iter, hrep r2 now2 vu2 iter2]

/-- Witness of C4: the draw one half. -/
theorem identity_class_by_first_draw_witness :
    ((∃ suffix : String, nextUserID (1 / 2) 0 1700000000000 3 7 = "user-repeat-" ++ suffix) ↔
      (1 / 2 : ℚ) < 1 / 5) ∧
    (nextUserID (1 / 2) 0 1700000000000 3 7 =
        "user-" ++ toString 1700000000000 ++ "-" ++ toString 3 ++ "-" ++ toString 7 ↔
      (1 / 5 : ℚ) ≤ 1 / 2) ∧
    ((1 / 2 : ℚ) < duplicateThreshold ↔ (1 / 2 : ℚ) < 1 / 5) ∧
    (∀ (r2 : ℚ) (now2 vu2 iter2 : ℕ),
      (∃ suffix : String, nextUserID (1 / 2) 0 1700000000000 3 7 = "user-repeat-" ++ suffix) ↔
        (∃ suffix : String, nextUserID (1 / 2) r2 now2 vu2 iter2 = "user-repeat-" ++ suffix)) :=
  identity_class_by_first_draw (1 / 2) 0 1700000000000 3 7 isDouble_half

/-- C5: for a draw `c` (a binary64 number with `0 ≤ c < 1`) the index
`Math.floor(c * campaigns.length)` is a valid index of `campaigns`, the lookup
yields a member of `[1, 2]` and never `undefined`, the index is `k` exactly for
the draws in `[k / length, (k + 1) / length)`, and the campaign is 1 exactly
when `c < 0.5` and 2 exactly when `c ≥ 0.5`. -/
theorem campaign_choice_uniform (c : ℚ) (hd : IsDouble c) (h0 : 0 ≤ c) (h1 : c < 1) :
    (0 ≤ ⌊jsMul c campaigns.length⌋ ∧ ⌊jsMul c campaigns.length⌋ < campaigns.length) ∧
    (∃ C : ℕ, chooseCampaign c = some C ∧ C ∈ campaigns) ∧
    (∀ k : ℕ, k < campaigns.length →
      (⌊jsMul c campaigns.length⌋ = (k : ℤ) ↔
        (k : ℚ) / campaigns.length ≤ c ∧ c < ((k : ℚ) + 1) / campaigns.length)) ∧
    (∀ k : ℕ, k < campaigns.length →
      (chooseCampaign c = campaigns[k]? ↔
        (k : ℚ) / campaigns.length ≤ c ∧ c < ((k : ℚ) + 1) / campaigns.length)) ∧
    (chooseCampaign c = some 1 ↔ c < 1 / 2) ∧
    (chooseCampaign c = some 2 ↔ 1 / 2 ≤ c) := by
  have hfl := floor_mul_length hd h0 h1
  have hlen : campaigns.length = 2 := rfl
  have hlenq : ((campaigns.length : ℕ) : ℚ) = 2 := by rw [hlen]; norm_num
  have hk : ∀ k : ℕ, k < campaigns.length →
      (⌊jsMul c campaigns.length⌋ = (k : ℤ) ↔
        (k : ℚ) / campaigns.length ≤ c ∧ c < ((k : ℚ) + 1) / campaigns.length) := by
    intro k hk
    have hfl2 := hfl
    rw [hlenq] at hfl2 ⊢
    rw [hlen] at hk
    interval_cases k
    · rcases lt_or_le c (1 / 2) with h | h
      · rw [hfl2.1 h]
        norm_num
        constructor <;> linarith
      · rw [hfl2.2 h]
        norm_num
        intro _
        linarith
    · rcases lt_or_le c (1 / 2) with h | h
      · rw [hfl2.1 h]
        norm_num
        intro h2
        linarith
      · rw [hfl2.2 h]
        norm_num
        constructor <;> linarith
  have hc : ∀ k : ℕ, k < campaigns.length →
      (chooseCampaign c = campaigns[k]? ↔ ⌊jsMul c campaigns.length⌋ = (k : ℤ)) := by
    intro k hk
    rw [hlen] at hk
    unfold chooseCampaign
    rcases lt_or_le c (1 / 2) with h | h
    · rw [hfl.1 h]
      interval_cases k <;> simp [arrayGet, campaigns]
    · rw [hfl.2 h]
      interval_cases k <;> simp [arrayGet, campaigns]
  refine ⟨?_, ?_, hk, fun k hlt => (hc k hlt).trans (hk k hlt), ?_, ?_⟩
  · rcases lt_or_le c (1 / 2) with h | h
    · rw [hfl.1 h, hlen]
      norm_num
    · rw [hfl.2 h, hlen]
      norm_num
  · rcases lt_or_le c (1 / 2) with h | h
    · exact ⟨1, chooseCampaign_of_lt hd h0 h1 h, by decide⟩
    · exact ⟨2, chooseCampaign_of_ge hd h0 h1 h, by decide⟩
  · constructor
    · intro h
      by_contra hc2
      push_neg at hc2
      rw [chooseCampaign_of_ge hd h0 h1 hc2] at h
      exact absurd h (by decide)
    · exact chooseCampaign_of_lt hd h0 h1
  · constructor
    · intro h
      by_contra hc2
      push_neg at hc2
      rw [chooseCampaign_of_lt hd h0 h1 hc2] at h
      exact absurd h (by decide)
    · exact chooseCampaign_of_ge hd h0 h1

/-- Witness of C5: the draw one half, which selects the second campaign. -/
theorem campaign_choice_uniform_witness :
    (0 ≤ ⌊jsMul (1 / 2) campaigns.length⌋ ∧
      ⌊jsMul (1 / 2) campaigns.length⌋ < campaigns.length) ∧
    (∃ C : ℕ, chooseCampaign (1 / 2) = some C ∧ C ∈ campaigns) ∧
    (∀ k : ℕ, k < campaigns.length →
      (⌊jsMul (1 / 2) campaigns.length⌋ = (k : ℤ) ↔
        (k : ℚ) / campaigns.length ≤ 1 / 2 ∧ (1 / 2 : ℚ) < ((k : ℚ) + 1) / campaigns.length)) ∧
    (∀ k : ℕ, k < campaigns.length →
      (chooseCampaign (1 / 2) = campaigns[k]? ↔
        (k : ℚ) / campaigns.length ≤ 1 / 2 ∧ (1 / 2 : ℚ) < ((k : ℚ) + 1) / campaigns.length)) ∧
    (chooseCampaign (1 / 2) = some 1 ↔ (1 / 2 : ℚ) < 1 / 2) ∧
    (chooseCampaign (1 / 2) = some 2 ↔ (1 / 2 : ℚ) ≤ 1 / 2) :=
  campaign_choice_uniform (1 / 2) isDouble_half (by norm_num) (by norm_num)

/-- The product of the binary64 number written `0.009` and 1000 rounds to 9. -/
theorem floor_mul_thousand_boundary :
    ⌊jsMul (5188146770730811 / 2 ^ 59) 1000⌋ = 9 := by
  unfold jsMul
  have hlo : (2 : ℚ) ^ (3 : ℤ) ≤ 5188146770730811 / 2 ^ 59 * 1000 := by norm_num
  have hhi : (5188146770730811 / 2 ^ 59 * 1000 : ℚ) < 2 ^ (3 + 1 : ℤ) := by norm_num
  have hu := ulpExp_of_bounds (by norm_num) hlo hhi
  have e : (2 : ℚ) ^ (3 - 52 : ℤ) = 1 / 2 ^ 49 := by
    have : (3 - 52 : ℤ) = -49 := by norm_num
    rw [this, zpow_neg]
    norm_cast
    simp
  rw [fl_eq, hu, e]
  have hk : roundHalfEven (5188146770730811 / 2 ^ 59 * 1000 / (1 / 2 ^ 49)) = 5066549580791808 :=
    roundHalfEven_eq_of_near (by norm_num) (by norm_num)
  rw [hk]
  norm_num

theorem isDouble_boundary : IsDouble (5188146770730811 / 2 ^ 59) := by
  have h := fl_dyadic 5188146770730811 (-59) (by norm_num) (by norm_num)
  have e : ((5188146770730811 : ℕ) : ℚ) * 2 ^ (-59 : ℤ) = 5188146770730811 / 2 ^ 59 := by
    rw [zpow_neg]
    norm_cast
  rw [e] at h
  refine ⟨h, ?_⟩
  rw [abs_of_nonneg (by norm_num)]
  norm_num

/-- C3, counterexample: the binary64 number written `0.009` is a draw of the unit
interval that lies strictly below `9 / 1000`, outside `[9 / 1000, 10 / 1000)`,
and yet produces the pool member `user-repeat-9`. -/
theorem repeated_identity_interval_counterexample :
    IsDouble (5188146770730811 / 2 ^ 59) ∧
    (0 : ℚ) ≤ 5188146770730811 / 2 ^ 59 ∧ (5188146770730811 / 2 ^ 59 : ℚ) < 1 ∧
    nextUserID 0 (5188146770730811 / 2 ^ 59) 0 0 0 = "user-repeat-9" ∧
    ¬ ((9 : ℚ) / 1000 ≤ 5188146770730811 / 2 ^ 59 ∧
        (5188146770730811 / 2 ^ 59 : ℚ) < (9 + 1) / 1000) := by
  refine ⟨isDouble_boundary, by norm_num, by norm_num, ?_, by norm_num⟩
  rw [nextUserID_of_lt _ 0 0 0 zero_lt_duplicateThreshold, floor_mul_thousand_boundary]
  decide

/-- C3 (amended): for a second draw `r` (a binary64 number with `0 ≤ r < 1`) the
repeated-class identity is `user-repeat-n` with `n = floor (r * 1000)`, the
product being the rounded binary64 one, and `0 ≤ n ≤ 999`. The draws that
produce `n` all lie in `[n / 1000 * (1 - 2 ^ (-53)), (n + 1) / 1000)`, every
draw in `[n / 1000, (n + 1) / 1000 * (1 - 2 ^ (-53)))` produces `n`, and each
`n` in `0..999` is produced by some draw. -/
theorem repeated_identity_pool (d r : ℚ) (now vu iter : ℕ) (hd : d < duplicateThreshold)
    (hr : IsDouble r) (h0 : 0 ≤ r) (h1 : r < 1) :
    (∃ n : ℕ, n ≤ 999 ∧ ⌊jsMul r 1000⌋ = (n : ℤ) ∧
      nextUserID d r now vu iter = "user-repeat-" ++ toString n ∧
      (n : ℚ) / 1000 * (1 - 1 / 2 ^ 53) ≤ r ∧ r < ((n : ℚ) + 1) / 1000) ∧
    (∀ n : ℕ, n ≤ 999 → (n : ℚ) / 1000 ≤ r → r < ((n : ℚ) + 1) / 1000 * (1 - 1 / 2 ^ 53) →
      nextUserID d r now vu iter = "user-repeat-" ++ toString n) ∧
    (∀ n : ℕ, n ≤ 999 → ∃ r2 : ℚ, IsDouble r2 ∧ 0 ≤ r2 ∧ r2 < 1 ∧
      nextUserID d r2 now vu iter = "user-repeat-" ++ toString n) := by
  refine ⟨?_, ?_, ?_⟩
  · obtain ⟨n, hn, hfloor, hlo, hhi⟩ := floor_mul_thousand hr h0 h1
    refine ⟨n, hn, hfloor, ?_, hlo, hhi⟩
    rw [nextUserID_of_lt r now vu iter hd, hfloor, toString_int_natCast]
  · intro n hn hlo hhi
    rw [nextUserID_of_lt r now vu iter hd, floor_mul_thousand_eq n hn hlo hhi,
      toString_int_natCast]
  · intro n hn
    obtain ⟨r2, hd2, h02, h12, hfloor⟩ := exists_draw_of_index n hn
    refine ⟨r2, hd2, h02, h12, ?_⟩
    rw [nextUserID_of_lt r2 now vu iter hd, hfloor, toString_int_natCast]

/-- Witness of C3 (amended): the draws zero (class) and one half (pool member 500). -/
theorem repeated_identity_pool_witness :
    (∃ n : ℕ, n ≤ 999 ∧ ⌊jsMul (1 / 2) 1000⌋ = (n : ℤ) ∧
      nextUserID 0 (1 / 2) 1700000000000 3 7 = "user-repeat-" ++ toString n ∧
      (n : ℚ) / 1000 * (1 - 1 / 2 ^ 53) ≤ 1 / 2 ∧ (1 / 2 : ℚ) < ((n : ℚ) + 1) / 1000) ∧
    (∀ n : ℕ, n ≤ 999 → (n : ℚ) / 1000 ≤ 1 / 2 →
      (1 / 2 : ℚ) < ((n : ℚ) + 1) / 1000 * (1 - 1 / 2 ^ 53) →
      nextUserID 0 (1 / 2) 1700000000000 3 7 = "user-repeat-" ++ toString n) ∧
    (∀ n : ℕ, n ≤ 999 → ∃ r2 : ℚ, IsDouble r2 ∧ 0 ≤ r2 ∧ r2 < 1 ∧
      nextUserID 0 r2 1700000000000 3 7 = "user-repeat-" ++ toString n) :=
  repeated_identity_pool 0 (1 / 2) 1700000000000 3 7 zero_lt_duplicateThreshold isDouble_half
    (by norm_num) (by norm_num)

/-- C6: for the chosen campaign `C` and the generated identity `U` the iteration
issues a POST to `baseURL + "/campaign/" + decimal C + "/open"` with the header
`Content-Type: application/json`, the timeout `60s` and the JSON text of the
object whose single field `user_id` is `U`; `U` consists of lower-case letters,
digits and hyphens only, so nothing is escaped, the body is exactly the text
`\x7b"user_id":"U"\x7d`, and reading it back yields `U`. -/
theorem request_shape (rt : Runtime) (env : Option String) (c d r : ℚ) (now vu iter : ℕ)
    (C : ℕ) (hC : chooseCampaign c = some C) :
    (defaultFn rt env c d r now vu iter).requests =
      rt.requests ++
        [{ method := "POST"
           url := baseURL env ++ "/campaign/" ++ toString C ++ "/open"
           body := stringifyUserId (nextUserID d r now vu iter)
           headers := [("Content-Type", "application/json")]
           timeout := "60s" }] ∧
    (∀ ch ∈ (nextUserID d r now vu iter).data, IsIdentChar ch) ∧
    stringifyUserId (nextUserID d r now vu iter) =
      "\x7b\"user_id\":\"" ++ nextUserID d r now vu iter ++ "\"\x7d" ∧
    parseUserIdBody (stringifyUserId (nextUserID d r now vu iter)) =
      some (nextUserID d r now vu iter) := by
  have hid := nextUserID_isIdentChar d r now vu iter
  refine ⟨?_, hid, stringifyUserId_plain _ hid, parseUserIdBody_stringify _ hid⟩
  obtain ⟨req, hreq, hrequests, _⟩ := defaultFn_effects rt env c d r now vu iter
  rw [hrequests, hreq, hC]
  rfl

/-- Witness of C6: the first campaign, a unique-class identity. -/
theorem request_shape_witness :
    (defaultFn { respond := fun _ => { status := 200, body := "", error := "", url := "" },
                 requests := [], checks := [] } none 0 (1 / 2) 0 1700000000000 3 7).requests =
      [] ++
        [{ method := "POST"
           url := baseURL none ++ "/campaign/" ++ toString 1 ++ "/open"
           body := stringifyUserId (nextUserID (1 / 2) 0 1700000000000 3 7)
           headers := [("Content-Type", "application/json")]
           timeout := "60s" }] ∧
    (∀ ch ∈ (nextUserID (1 / 2) 0 1700000000000 3 7).data, IsIdentChar ch) ∧
    stringifyUserId (nextUserID (1 / 2) 0 1700000000000 3 7) =
      "\x7b\"user_id\":\"" ++ nextUserID (1 / 2) 0 1700000000000 3 7 ++ "\"\x7d" ∧
    parseUserIdBody (stringifyUserId (nextUserID (1 / 2) 0 1700000000000 3 7)) =
      some (nextUserID (1 / 2) 0 1700000000000 3 7) :=
  request_shape { respond := fun _ => { status := 200, body := "", error := "", url := "" },
                  requests := [], checks := [] } none 0 (1 / 2) 0 1700000000000 3 7 1
    chooseCampaign_zero

/-- C7: whatever the response (any status, or the status 0 of a transport
failure), one iteration issues exactly one request and emits exactly one check
record, named `status acceptable`, whose outcome is the acceptability of the
response to that request: no second request is made after a failure, the
iteration always completes, and an unexpected status or a transport failure is
recorded as one failed check. -/
theorem iteration_one_request_one_check (rt : Runtime) (env : Option String) (c d r : ℚ)
    (now vu iter : ℕ) :
    ∃ req : Request,
      (defaultFn rt env c d r now vu iter).requests = rt.requests ++ [req] ∧
      (defaultFn rt env c d r now vu iter).requests.length = rt.requests.length + 1 ∧
      (defaultFn rt env c d r now vu iter).checks =
        rt.checks ++
          [{ name := "status acceptable", passed := statusAcceptable (rt.respond req) }] ∧
      (defaultFn rt env c d r now vu iter).checks.length = rt.checks.length + 1 ∧
      (¬ ((rt.respond req).status = 200 ∨ (rt.respond req).status = 400 ∨
          (rt.respond req).status = 404 ∨ (rt.respond req).status = 409 ∨
          (rt.respond req).status = 410) →
        (defaultFn rt env c d r now vu iter).checks =
          rt.checks ++ [{ name := "status acceptable", passed := false }]) ∧
      ((rt.respond req).status = 0 →
        (defaultFn rt env c d r now vu iter).checks =
          rt.checks ++ [{ name := "status acceptable", passed := false }]) := by
  obtain ⟨req, _, hrequests, hchecks⟩ := defaultFn_effects rt env c d r now vu iter
  have hfail : ¬ ((rt.respond req).status = 200 ∨ (rt.respond req).status = 400 ∨
      (rt.respond req).status = 404 ∨ (rt.respond req).status = 409 ∨
      (rt.respond req).status = 410) → statusAcceptable (rt.respond req) = false := by
    intro h
    rw [← statusAcceptable_eq_true_iff] at h
    simpa using h
  refine ⟨req, hrequests, ?_, hchecks, ?_, ?_, ?_⟩
  · rw [hrequests, List.length_append]
    rfl
  · rw [hchecks, List.length_append]
    rfl
  · intro h
    rw [hchecks, hfail h]
  · intro h
    rw [hchecks, hfail (by rw [h]; decide)]

/-- C8, counterexample: with `BASE_URL` set to the empty string the base URL is
the default, not the value of the variable. -/
theorem baseURL_empty_counterexample :
    baseURL (some "") = "http://localhost:8080" ∧ baseURL (some "") ≠ "" := by
  decide

/-- C8 (amended): the single scenario `open_red_packets` uses the executor
`constant-arrival-rate` with rate 5000 per time unit `1s`, duration `2m`, 1500
pre-allocated and at most 6000 workers, floor below ceiling; the campaigns are
1 and 2; and the base URL is the value of `BASE_URL` when that is set to a
non-empty string, the default `http://localhost:8080` when it is unset or
empty. -/
theorem configuration_defaults :
    options.scenarios =
      [("open_red_packets",
        { executor := "constant-arrival-rate", duration := "2m", rate := 5000,
          timeUnit := "1s", preAllocatedVUs := 1500, maxVUs := 6000 })] ∧
    (∀ p ∈ options.scenarios, p.2.preAllocatedVUs ≤ p.2.maxVUs) ∧
    campaigns = [1, 2] ∧
    (∀ v : String, v ≠ "" → baseURL (some v) = v) ∧
    baseURL (some "") = "http://localhost:8080" ∧
    baseURL none = "http://localhost:8080" := by
  refine ⟨rfl, by decide, rfl, ?_, by decide, rfl⟩
  intro v hv
  unfold baseURL
  simp [hv]

end K6Open
